import Mathlib

/-!
# go-rewritestructs: the struct field rewrite

A shallow embedding of `main.go`: the type registry (`typesListType`), the tag
amendment (`addOmitemptyTag`) and the field loop of `rewriteFileDecls`.

Go strings are modelled as lists of Unicode code points (`Str`).  The parser only
hands over valid UTF-8, on which `regexp`, `strings.Contains` and
`strings.Replace` act rune by rune exactly as the list functions below do.
-/

namespace RewriteStructs

/-- A Go string, as the list of its runes. -/
abbrev Str := List Char

/-! ## The `strings` functions the program calls -/

/-- The text `s` starts with `p`: the comparison `strings.Contains` and
`strings.Replace` make at each position. -/
def startsWith (s p : Str) : Bool := p.isPrefixOf s

/-- Go `strings.Contains s substr`: `substr` occurs somewhere in `s`. -/
def Contains : Str → Str → Bool
  | [], substr => substr.isEmpty
  | c :: cs, substr => startsWith (c :: cs) substr || Contains cs substr

/-- The scan of `strings.Replace s old new (-1)` for a non-empty `old`: `skip`
counts the runes of a matched `old` that are still to be dropped. -/
def replaceScan (old new : Str) : Nat → Str → Str
  | _, [] => []
  | skip + 1, _ :: cs => replaceScan old new skip cs
  | 0, c :: cs =>
    if startsWith (c :: cs) old then new ++ replaceScan old new (old.length - 1) cs
    else c :: replaceScan old new 0 cs

/-- Go `strings.Replace s old new (-1)`: every non-overlapping occurrence of
`old`, found left to right, is replaced by `new`.  An empty `old` matches at the
start of the string and after every rune. -/
def Replace (s old new : Str) : Str :=
  if old.isEmpty then new ++ s.flatMap (fun c => c :: new)
  else replaceScan old new 0 s

/-- Go `strings.ToLower`, rune by rune; `lowerRune` is `unicode.ToLower`, whose
tables belong to the Go standard library. -/
def ToLower (lowerRune : Char → Char) (s : Str) : Str := s.map lowerRune

/-! ## The regular expression of `addOmitemptyTag` -/

/-- The literal part of the pattern: a backtick followed by `json:"`. -/
def jsonKey : Str := "`json:\"".toList

/-- The text `,omitempty` appended to a value. -/
def omitSuffix : Str := ",omitempty".toList

/-- The omit-marker `omitempty`. -/
def omitMarker : Str := "omitempty".toList

/-- The part `(.*?)"` of the pattern, tried at the head of the text: the shortest
run of runes other than a newline that is followed by a double quote. -/
def lazyUpToQuote : Str → Option Str
  | [] => none
  | c :: cs =>
    if c = '"' then some []
    else if c = '\n' then none
    else (lazyUpToQuote cs).map (c :: ·)

/-- The pattern tried at the head of the text; the result is the capture group. -/
def matchHere (s : Str) : Option Str :=
  if startsWith s jsonKey then lazyUpToQuote (s.drop jsonKey.length) else none

/-- The capture group `matches[0][1]` of
`re.FindAllStringSubmatch(s, -1)`: the group of the leftmost match, `none` when
the pattern matches nowhere. -/
def firstSubmatch : Str → Option Str
  | [] => none
  | c :: cs =>
    match matchHere (c :: cs) with
    | some v => some v
    | none => firstSubmatch cs

/-! ## The syntax tree -/

/-- The shapes of `ast.Expr` the rewrite tells apart.  The length of an array
type is never inspected and is kept as its source text (`none` for a slice);
`other` stands for every remaining node kind (function, channel, selector,
struct, interface types and so on). -/
inductive Expr where
  | Ident (Name : Str)
  | StarExpr (X : Expr)
  | ArrayType (Len : Option Str) (Elt : Expr)
  | MapType (Key : Expr) (Value : Expr)
  | other (src : Str)
  deriving DecidableEq

/-- An `ast.Field`: `Names` is empty for an embedded field (Go `nil`), `Typ` is
the Go field `Type`, `Tag` is the `Value` of the tag literal when there is one. -/
structure Field where
  Names : List Str
  Typ : Expr
  Tag : Option Str
  deriving DecidableEq

/-! ## The registry -/

/-- The Go type `map[string]bool`, as the list of its entries (keys unique). -/
abbrev typesListType := List (Str × Bool)

/-- Go `t[typeName] = v` on a map. -/
def typesListType.assign (t : typesListType) (typeName : Str) (v : Bool) : typesListType :=
  (typeName, v) :: t.filter (fun e => e.1 ≠ typeName)

/-- Go `LoadList`. -/
def typesListType.LoadList (t : typesListType) (types : List Str) : typesListType :=
  types.foldl (fun t typeName => t.assign typeName true) t

/-- Go `Contains` of the registry: the key is present. -/
def typesListType.Contains (t : typesListType) (typeName : Str) : Bool :=
  match t.lookup typeName with
  | some _ => true
  | none => false

/-- Go `needPointer`; the package variable `typesList` is passed explicitly. -/
def needPointer (typesList : typesListType) (typeName : Str) : Bool :=
  typesList.Contains typeName

/-- Go `astPtrExpr`. -/
def astPtrExpr (typeName : Str) : Expr := .StarExpr (.Ident typeName)

/-! ## The rewrite -/

/-- The new `Value` that `addOmitemptyTag` assigns to a tag literal. -/
def addOmitemptyValue (value : Str) : Str :=
  match firstSubmatch value with
  | some orig1 =>
    if !Contains orig1 omitMarker then Replace value orig1 (orig1 ++ omitSuffix)
    else value
  | none => value

/-- Go `addOmitemptyTag`. -/
def addOmitemptyTag (fld : Field) : Field :=
  match fld.Tag with
  | some value => { fld with Tag := some (addOmitemptyValue value) }
  | none => fld

/-- The tag literal built when a named field has none. -/
def synthTag (lowerRune : Char → Char) (fldName : Str) : Str :=
  "`json:\"".toList ++ ToLower lowerRune fldName ++ "\"`".toList

/-- Lines 130-137 of the loop body: a field without a tag gets one made from its
lower-cased first name. -/
def synthStep (lowerRune : Char → Char) (fldName : Str) (fld : Field) : Field :=
  match fld.Tag with
  | none => { fld with Tag := some (synthTag lowerRune fldName) }
  | some _ => fld

/-- Lines 139-146: the test `Is Non-Pointer type`. -/
def identStep (typesList : typesListType) (fld : Field) : Field :=
  match fld.Typ with
  | .Ident name =>
    if needPointer typesList name then addOmitemptyTag { fld with Typ := astPtrExpr name }
    else fld
  | _ => fld

/-- Lines 148-158: the test `Array Type`. -/
def arrayStep (typesList : typesListType) (fld : Field) : Field :=
  match fld.Typ with
  | .ArrayType len (.Ident name) =>
    if needPointer typesList name then
      addOmitemptyTag { fld with Typ := .ArrayType len (astPtrExpr name) }
    else fld
  | _ => fld

/-- Lines 160-169: the test `MapType`. -/
def mapStep (typesList : typesListType) (fld : Field) : Field :=
  match fld.Typ with
  | .MapType key (.Ident name) =>
    if needPointer typesList name then
      addOmitemptyTag { fld with Typ := .MapType key (astPtrExpr name) }
    else fld
  | _ => fld

/-- Lines 171-174: the test `Is a simple pointer?`. -/
def starStep (fld : Field) : Field :=
  match fld.Typ with
  | .StarExpr _ => addOmitemptyTag fld
  | _ => fld

/-- The body of the field loop of `rewriteFileDecls` for one field: an embedded
field is appended as it is, a named field goes through the five steps in turn. -/
def rewriteField (lowerRune : Char → Char) (typesList : typesListType) (fld : Field) : Field :=
  match fld.Names with
  | [] => fld
  | fldName :: _ =>
    starStep (mapStep typesList (arrayStep typesList (identStep typesList
      (synthStep lowerRune fldName fld))))

/-- The field loop of `rewriteFileDecls`: the new list `fl`, grown by `append`. -/
def rewriteFields (lowerRune : Char → Char) (typesList : typesListType)
    (fields : List Field) : List Field :=
  fields.foldl (fun fl fld => fl ++ [rewriteField lowerRune typesList fld]) []

/-! ## Vocabulary of the specification -/

/-- A raw string literal: the text starts with a backtick, ends with a backtick
and has no backtick in between. -/
def isRawLit : Str → Bool
  | [] => false
  | c :: rest =>
    c == '\x60' && rest.getLast? == some '\x60' && !(rest.dropLast.contains '\x60')

/-- The comma-separated options of a json value. -/
def tagOptions (v : Str) : List Str := v.splitOn ','

/-- The number of places of `s` at which `p` occurs. -/
def countOcc (p : Str) : Str → Nat
  | [] => if p.isEmpty then 1 else 0
  | c :: cs => (if startsWith (c :: cs) p then 1 else 0) + countOcc p cs

/-- The text up to the next double quote, when there is one. -/
def upToQuote : Str → Option Str
  | [] => none
  | c :: cs => if c = '"' then some [] else (upToQuote cs).map (c :: ·)

/-- The json value segment of an annotation: the text between the first
occurrence of the key text (backtick, `json:"`) and the next double quote. -/
def jsonValueSegment : Str → Option Str
  | [] => none
  | c :: cs =>
    if startsWith (c :: cs) jsonKey then upToQuote ((c :: cs).drop jsonKey.length)
    else jsonValueSegment cs

/-- The json serialization key of an annotation: the text after the first
occurrence of the key text up to the first comma or closing quote. -/
def jsonSerializationKey (s : Str) : Option Str :=
  (jsonValueSegment s).map (fun v => v.takeWhile (fun c => c != ','))

/-- The runes a Go identifier may be made of: the ASCII letters, digits and the
underscore, and runes outside ASCII (of which Go admits the Unicode letters and
digits). -/
def identRune (c : Char) : Bool := c.isAlphanum || c == '_' || 128 ≤ c.toNat

/-- A field name that is an identifier: non-empty and made of identifier runes. -/
def isIdentifier (name : Str) : Bool := !name.isEmpty && name.all identRune

/-- The annotation has a json value segment that contains the omit-marker
exactly once. -/
def hasMarkerOnce (tag : Option Str) : Bool :=
  match tag.bind jsonValueSegment with
  | some seg => countOcc omitMarker seg == 1
  | none => false

/-- The annotation of a named field once the tag synthesis has run: the
annotation it had, or the synthesized one. -/
def tagAfterSynth (lowerRune : Char → Char) (fld : Field) : Str :=
  fld.Tag.getD (synthTag lowerRune (fld.Names.headD []))

/-- What the four type tests of the loop do to a declared type: the type written
back, and how many times `addOmitemptyTag` is called. -/
def typeAction (typesList : typesListType) : Expr → Expr × Nat
  | .Ident name =>
    if needPointer typesList name then (astPtrExpr name, 2) else (.Ident name, 0)
  | .ArrayType len (.Ident name) =>
    if needPointer typesList name then (.ArrayType len (astPtrExpr name), 1)
    else (.ArrayType len (.Ident name), 0)
  | .MapType key (.Ident name) =>
    if needPointer typesList name then (.MapType key (astPtrExpr name), 1)
    else (.MapType key (.Ident name), 0)
  | .StarExpr x => (.StarExpr x, 1)
  | t => (t, 0)

/-- The declared types on which none of the four type tests of the loop looks
further: not a bare name, not a pointer, not a sequence of a bare name and not a
mapping to a bare name. -/
def isOtherShape : Expr → Bool
  | .Ident _ => false
  | .StarExpr _ => false
  | .ArrayType _ (.Ident _) => false
  | .MapType _ (.Ident _) => false
  | _ => true

/-! ## Facts about the string functions -/

theorem startsWith_iff (s p : Str) : startsWith s p = true ↔ p <+: s := by
  simp [startsWith]

theorem replaceScan_skip (old new : Str) (k : Nat) (s : Str) :
    replaceScan old new k s = replaceScan old new 0 (s.drop k) := by
  induction s generalizing k with
  | nil => simp [replaceScan]
  | cons c cs ih =>
    cases k with
    | zero => simp
    | succ k => simpa [replaceScan] using ih k

theorem replaceScan_cons_of_no_match {old new : Str} {c : Char} {cs : Str}
    (h : ¬ old <+: c :: cs) :
    replaceScan old new 0 (c :: cs) = c :: replaceScan old new 0 cs := by
  have h' : ¬ startsWith (c :: cs) old = true := fun hp => h ((startsWith_iff _ _).1 hp)
  simp [replaceScan, h']

theorem replaceScan_of_match {old new s : Str} (hne : old ≠ []) (h : old <+: s) :
    replaceScan old new 0 s = new ++ replaceScan old new 0 (s.drop old.length) := by
  cases s with
  | nil => exact absurd (List.prefix_nil.1 h) hne
  | cons c cs =>
    obtain ⟨n, hn⟩ : ∃ n, old.length = n + 1 :=
      Nat.exists_eq_succ_of_ne_zero (fun h0 => hne (List.length_eq_zero.1 h0))
    rw [replaceScan, if_pos ((startsWith_iff _ _).2 h), replaceScan_skip]
    simp [hn]

theorem replaceScan_append_old {old new : Str} (t : Str) (hne : old ≠ []) :
    replaceScan old new 0 (old ++ t) = new ++ replaceScan old new 0 t := by
  rw [replaceScan_of_match hne (List.prefix_append old t)]
  simp

theorem replaceScan_cons_of_not_mem {old new : Str} {c : Char} (cs : Str)
    (hne : old ≠ []) (hc : c ∉ old) :
    replaceScan old new 0 (c :: cs) = c :: replaceScan old new 0 cs := by
  apply replaceScan_cons_of_no_match
  intro hp
  cases old with
  | nil => exact hne rfl
  | cons d ds =>
    have := List.cons_prefix_cons.1 hp
    exact hc (by simp [this.1])

theorem lazyUpToQuote_eq_some {t v : Str} :
    lazyUpToQuote t = some v ↔ ∃ rest, t = v ++ '"' :: rest ∧ '"' ∉ v ∧ '\n' ∉ v := by
  induction t generalizing v with
  | nil => simp [lazyUpToQuote]
  | cons c cs ih =>
    rw [lazyUpToQuote]
    by_cases hq : c = '"'
    · subst hq
      simp only [if_true, Option.some.injEq]
      constructor
      · rintro rfl
        exact ⟨cs, rfl, by simp, by simp⟩
      · rintro ⟨rest, h, hv, -⟩
        cases v with
        | nil => rfl
        | cons d ds =>
          simp only [List.cons_append, List.cons.injEq] at h
          exact absurd (List.mem_cons.2 (Or.inl h.1)) hv
    · rw [if_neg hq]
      by_cases hn : c = '\n'
      · subst hn
        simp only [if_true]
        constructor
        · intro h; cases h
        · rintro ⟨rest, h, -, hv⟩
          cases v with
          | nil => simp at h
          | cons d ds =>
            simp only [List.cons_append, List.cons.injEq] at h
            exact absurd (List.mem_cons.2 (Or.inl h.1)) hv
      · rw [if_neg hn]
        constructor
        · intro h
          cases hl : lazyUpToQuote cs with
          | none => simp [hl] at h
          | some w =>
            simp only [hl, Option.map_some', Option.some.injEq] at h
            subst h
            obtain ⟨rest, h1, h2, h3⟩ := ih.1 hl
            refine ⟨rest, by simp [h1], ?_, ?_⟩
            · simp [h2, Ne.symm hq]
            · simp [h3, Ne.symm hn]
        · rintro ⟨rest, h, hv1, hv2⟩
          cases v with
          | nil =>
            simp only [List.nil_append, List.cons.injEq] at h
            exact absurd h.1 hq
          | cons d ds =>
            simp only [List.cons_append, List.cons.injEq] at h
            obtain ⟨rfl, h⟩ := h
            have : lazyUpToQuote cs = some ds :=
              ih.2 ⟨rest, h, fun hm => hv1 (List.mem_cons_of_mem _ hm),
                fun hm => hv2 (List.mem_cons_of_mem _ hm)⟩
            simp [this]

theorem matchHere_eq_some {s v : Str} :
    matchHere s = some v ↔
      ∃ rest, s = jsonKey ++ v ++ '"' :: rest ∧ '"' ∉ v ∧ '\n' ∉ v := by
  unfold matchHere
  by_cases hp : startsWith s jsonKey = true
  · rw [if_pos hp, lazyUpToQuote_eq_some]
    obtain ⟨t, rfl⟩ := (startsWith_iff _ _).1 hp
    simp [List.append_assoc]
  · rw [if_neg hp]
    constructor
    · intro h; cases h
    · rintro ⟨rest, rfl, -, -⟩
      exact absurd ((startsWith_iff _ _).2 ⟨v ++ '"' :: rest, by simp⟩) hp

theorem firstSubmatch_cons (c : Char) (cs : Str) :
    firstSubmatch (c :: cs) = (matchHere (c :: cs)).orElse (fun _ => firstSubmatch cs) := by
  rw [firstSubmatch]
  cases matchHere (c :: cs) <;> rfl

/-- A match of the pattern is an occurrence of the key text, followed by the
captured value and a double quote. -/
theorem firstSubmatch_sound {s v : Str} (h : firstSubmatch s = some v) :
    ∃ a rest, s = a ++ jsonKey ++ v ++ '"' :: rest ∧ '"' ∉ v ∧ '\n' ∉ v := by
  induction s with
  | nil => simp [firstSubmatch] at h
  | cons c cs ih =>
    rw [firstSubmatch_cons] at h
    cases hm : matchHere (c :: cs) with
    | some w =>
      simp only [hm, Option.orElse] at h
      cases h
      obtain ⟨rest, h1, h2, h3⟩ := matchHere_eq_some.1 hm
      exact ⟨[], rest, by simpa using h1, h2, h3⟩
    | none =>
      simp only [hm, Option.orElse] at h
      obtain ⟨a, rest, h1, h2, h3⟩ := ih h
      exact ⟨c :: a, rest, by simp [h1], h2, h3⟩

theorem lazyUpToQuote_isSome (v rest : Str) (hn : '\n' ∉ v) :
    (lazyUpToQuote (v ++ '"' :: rest)).isSome = true := by
  induction v with
  | nil => simp [lazyUpToQuote]
  | cons c cs ih =>
    have hc : c ≠ '\n' := fun h => hn (by simp [h])
    have ih' := ih (fun hm => hn (List.mem_cons_of_mem _ hm))
    rw [List.cons_append, lazyUpToQuote]
    by_cases hq : c = '"'
    · simp [hq]
    · rw [if_neg hq, if_neg hc]
      cases hl : lazyUpToQuote (cs ++ '"' :: rest) with
      | none => simp [hl] at ih'
      | some w => simp

theorem matchHere_nil : matchHere [] = none := by
  simp [matchHere, startsWith, jsonKey]

theorem firstSubmatch_of_matchHere {s v : Str} (h : matchHere s = some v) :
    firstSubmatch s = some v := by
  cases s with
  | nil => simp [matchHere_nil] at h
  | cons c cs => simp [firstSubmatch_cons, h, Option.orElse]

/-- The pattern matches as soon as the key text occurs somewhere with a double
quote after it and no newline in between. -/
theorem firstSubmatch_complete (a v rest : Str) (hn : '\n' ∉ v) :
    (firstSubmatch (a ++ jsonKey ++ v ++ '"' :: rest)).isSome = true := by
  induction a with
  | nil =>
    have hm : (matchHere (jsonKey ++ v ++ '"' :: rest)).isSome = true := by
      have hp : startsWith (jsonKey ++ v ++ '"' :: rest) jsonKey = true :=
        (startsWith_iff _ _).2 ⟨v ++ '"' :: rest, by simp⟩
      rw [matchHere, if_pos hp]
      simpa using lazyUpToQuote_isSome v rest hn
    obtain ⟨w, hw⟩ := Option.isSome_iff_exists.1 hm
    rw [List.nil_append, firstSubmatch_of_matchHere hw]
    rfl
  | cons c cs ih =>
    simp only [List.cons_append]
    rw [firstSubmatch_cons]
    cases matchHere (c :: (cs ++ jsonKey ++ v ++ '"' :: rest)) with
    | none => simpa [Option.orElse] using ih
    | some w => simp [Option.orElse]

theorem Contains_iff (s substr : Str) : Contains s substr = true ↔ substr <:+: s := by
  induction s with
  | nil => simp [Contains]
  | cons c cs ih =>
    rw [Contains, Bool.or_eq_true, startsWith_iff, ih, List.infix_cons_iff]

theorem mem_infix_intercalate {sep x : Str} {ls : List Str} (hx : x ∈ ls) :
    x <:+: sep.intercalate ls := by
  induction ls with
  | nil => simp at hx
  | cons y ys ih =>
    cases ys with
    | nil =>
      simp only [List.mem_singleton] at hx
      subst hx
      simp [List.intercalate, List.intersperse]
    | cons z zs =>
      have hrec : sep.intercalate (y :: z :: zs) = y ++ (sep ++ sep.intercalate (z :: zs)) := by
        simp [List.intercalate, List.intersperse]
      rw [hrec]
      rcases List.mem_cons.1 hx with rfl | hx'
      · exact (List.prefix_append _ _).isInfix
      · obtain ⟨a, b, hab⟩ := ih hx'
        exact ⟨y ++ sep ++ a, b, by simp [← hab, List.append_assoc]⟩

theorem infix_of_mem_tagOptions {m v : Str} (h : m ∈ tagOptions v) : m <:+: v := by
  have := @mem_infix_intercalate [','] m (v.splitOn ',') h
  rwa [List.intercalate_splitOn] at this

/-! ## Facts about `addOmitemptyTag` and the field loop -/

theorem addOmitemptyValue_of_none {s : Str} (h : firstSubmatch s = none) :
    addOmitemptyValue s = s := by
  simp [addOmitemptyValue, h]

theorem addOmitemptyValue_of_marker {s v : Str} (h : firstSubmatch s = some v)
    (hv : omitMarker <:+: v) : addOmitemptyValue s = s := by
  simp [addOmitemptyValue, h, (Contains_iff _ _).2 hv]

theorem addOmitemptyValue_of_fresh {s v : Str} (h : firstSubmatch s = some v)
    (hv : ¬ omitMarker <:+: v) :
    addOmitemptyValue s = Replace s v (v ++ omitSuffix) := by
  have : Contains v omitMarker = false := by
    rw [← Bool.not_eq_true, Contains_iff]; exact hv
  simp [addOmitemptyValue, h, this]

theorem rewriteField_embedded (lowerRune : Char → Char) (typesList : typesListType)
    (fld : Field) (h : fld.Names = []) : rewriteField lowerRune typesList fld = fld := by
  simp [rewriteField, h]

theorem rewriteFields_eq_map (lowerRune : Char → Char) (typesList : typesListType)
    (fields : List Field) :
    rewriteFields lowerRune typesList fields
      = fields.map (rewriteField lowerRune typesList) := by
  have key : ∀ (acc : List Field),
      fields.foldl (fun fl fld => fl ++ [rewriteField lowerRune typesList fld]) acc
        = acc ++ fields.map (rewriteField lowerRune typesList) := by
    induction fields with
    | nil => simp
    | cons f fs ih => intro acc; simp [ih]
  simpa [rewriteFields] using key []

theorem synthStep_eq (lowerRune : Char → Char) (n : Str) (ns : List Str) (typ : Expr)
    (tag : Option Str) :
    synthStep lowerRune n ⟨n :: ns, typ, tag⟩
      = ⟨n :: ns, typ, some (tagAfterSynth lowerRune ⟨n :: ns, typ, tag⟩)⟩ := by
  cases tag <;> simp [synthStep, tagAfterSynth]

/-- The loop body in closed form, for a named field: the type tests decide the
new type and the number of calls of `addOmitemptyTag` on the annotation that the
tag synthesis left. -/
theorem rewriteField_named (lowerRune : Char → Char) (typesList : typesListType)
    (fld : Field) (h : fld.Names ≠ []) :
    rewriteField lowerRune typesList fld =
      { Names := fld.Names
        Typ := (typeAction typesList fld.Typ).1
        Tag := some (addOmitemptyValue^[(typeAction typesList fld.Typ).2]
          (tagAfterSynth lowerRune fld)) } := by
  obtain ⟨names, typ, tag⟩ := fld
  cases names with
  | nil => exact absurd rfl h
  | cons n ns =>
    simp only [rewriteField, synthStep_eq]
    generalize tagAfterSynth lowerRune ⟨n :: ns, typ, tag⟩ = t0
    cases typ with
    | Ident name =>
      by_cases hp : needPointer typesList name = true
      · simp [identStep, arrayStep, mapStep, starStep, typeAction, hp, addOmitemptyTag,
          astPtrExpr]
      · simp [identStep, arrayStep, mapStep, starStep, typeAction, hp]
    | StarExpr x =>
      simp [identStep, arrayStep, mapStep, starStep, typeAction, addOmitemptyTag]
    | ArrayType len elt =>
      cases elt with
      | Ident name =>
        by_cases hp : needPointer typesList name = true
        · simp [identStep, arrayStep, mapStep, starStep, typeAction, hp, addOmitemptyTag,
            astPtrExpr]
        · simp [identStep, arrayStep, mapStep, starStep, typeAction, hp]
      | _ => simp [identStep, arrayStep, mapStep, starStep, typeAction]
    | MapType key value =>
      cases value with
      | Ident name =>
        by_cases hp : needPointer typesList name = true
        · simp [identStep, arrayStep, mapStep, starStep, typeAction, hp, addOmitemptyTag,
            astPtrExpr]
        · simp [identStep, arrayStep, mapStep, starStep, typeAction, hp]
      | _ => simp [identStep, arrayStep, mapStep, starStep, typeAction]
    | other src => simp [identStep, arrayStep, mapStep, starStep, typeAction]

theorem rewriteField_names (lowerRune : Char → Char) (typesList : typesListType)
    (fld : Field) : (rewriteField lowerRune typesList fld).Names = fld.Names := by
  by_cases h : fld.Names = []
  · rw [rewriteField_embedded _ _ _ h]
  · rw [rewriteField_named _ _ _ h]

/-! ## Raw string literals and the pattern -/

theorem isRawLit_iff (s : Str) :
    isRawLit s = true ↔ ∃ body, s = '\x60' :: (body ++ ['\x60']) ∧ '\x60' ∉ body := by
  cases s with
  | nil => simp [isRawLit]
  | cons c rest =>
    simp only [isRawLit, Bool.and_eq_true, beq_iff_eq, Bool.not_eq_true', List.cons.injEq]
    constructor
    · rintro ⟨⟨rfl, h2⟩, h3⟩
      refine ⟨rest.dropLast, ⟨rfl, ?_⟩, ?_⟩
      · exact (List.dropLast_append_getLast? _ h2).symm
      · simpa using h3
    · rintro ⟨body, ⟨rfl, rfl⟩, hb⟩
      simp [hb]

theorem matchHere_cons_ne {c : Char} (t : Str) (hc : c ≠ '\x60') : matchHere (c :: t) = none := by
  simp [matchHere, startsWith, jsonKey, List.isPrefixOf, Ne.symm hc]

theorem firstSubmatch_cons_ne {c : Char} (t : Str) (hc : c ≠ '\x60') :
    firstSubmatch (c :: t) = firstSubmatch t := by
  rw [firstSubmatch_cons, matchHere_cons_ne t hc]; rfl

theorem matchHere_singleton (c : Char) : matchHere [c] = none := by
  simp [matchHere, startsWith, jsonKey, List.isPrefixOf]

/-- After the opening backtick of a raw string literal the pattern cannot match. -/
theorem firstSubmatch_tail_raw (body : Str) (hb : '\x60' ∉ body) :
    firstSubmatch (body ++ ['\x60']) = none := by
  induction body with
  | nil =>
    rw [List.nil_append, firstSubmatch_cons, matchHere_singleton]
    rfl
  | cons c cs ih =>
    have hc : c ≠ '\x60' := fun h => hb (by simp [h])
    rw [List.cons_append, firstSubmatch_cons_ne _ hc]
    exact ih (fun hm => hb (List.mem_cons_of_mem _ hm))

/-- On a raw string literal the pattern can only match at the very start. -/
theorem firstSubmatch_raw (body : Str) (hb : '\x60' ∉ body) :
    firstSubmatch ('\x60' :: (body ++ ['\x60'])) = matchHere ('\x60' :: (body ++ ['\x60'])) := by
  rw [firstSubmatch_cons, firstSubmatch_tail_raw body hb]
  cases matchHere ('\x60' :: (body ++ ['\x60'])) <;> rfl

/-! ## How `strings.Replace` acts on an annotation -/

theorem prefix_of_not_mem {v a t : Str} {q : Char} (hq : q ∉ v) (h : v <+: a ++ q :: t) :
    v <+: a := by
  rcases List.prefix_or_prefix_of_prefix h (List.prefix_append a (q :: t)) with h1 | h1
  · exact h1
  · obtain ⟨u, rfl⟩ := h1
    rw [List.prefix_append_right_inj, List.prefix_cons_iff] at h
    rcases h with rfl | ⟨u', rfl, -⟩
    · simp
    · exact absurd (by simp) hq

theorem mem_replaceScan {old new : Str} {x : Char} (k : Nat) (s : Str)
    (h : x ∈ replaceScan old new k s) : x ∈ s ∨ x ∈ new := by
  induction s generalizing k with
  | nil => simp [replaceScan] at h
  | cons c cs ih =>
    cases k with
    | succ k =>
      rw [replaceScan] at h
      rcases ih k h with h1 | h1
      · exact Or.inl (List.mem_cons_of_mem _ h1)
      · exact Or.inr h1
    | zero =>
      rw [replaceScan] at h
      split at h
      · rcases List.mem_append.1 h with h1 | h1
        · exact Or.inr h1
        · rcases ih _ h1 with h2 | h2
          · exact Or.inl (List.mem_cons_of_mem _ h2)
          · exact Or.inr h2
      · rcases List.mem_cons.1 h with h1 | h1
        · exact Or.inl (by simp [h1])
        · rcases ih _ h1 with h2 | h2
          · exact Or.inl (List.mem_cons_of_mem _ h2)
          · exact Or.inr h2

/-- A final rune that does not occur in `old` stays the final rune. -/
theorem replaceScan_concat {old new : Str} {b : Char} (hne : old ≠ []) (hb : b ∉ old)
    (k : Nat) (u : Str) (hk : k ≤ u.length) :
    replaceScan old new k (u ++ [b]) = replaceScan old new k u ++ [b] := by
  induction u generalizing k with
  | nil =>
    have hk0 : k = 0 := by simpa using hk
    subst hk0
    rw [List.nil_append, replaceScan_cons_of_not_mem [] hne hb]
    simp [replaceScan]
  | cons c cs ih =>
    cases k with
    | succ k =>
      rw [List.cons_append, replaceScan, replaceScan]
      exact ih k (by simpa using hk)
    | zero =>
      rw [List.cons_append]
      by_cases hp : old <+: c :: cs
      · have hp' : old <+: c :: (cs ++ [b]) := hp.trans ⟨[b], by simp⟩
        have hlen : old.length - 1 ≤ cs.length := by
          have := hp.length_le
          simp only [List.length_cons] at this
          omega
        rw [replaceScan, if_pos ((startsWith_iff _ _).2 hp'), replaceScan,
          if_pos ((startsWith_iff _ _).2 hp), ih _ hlen, List.append_assoc]
      · have hp' : ¬ old <+: c :: (cs ++ [b]) := by
          intro h
          apply hp
          have h2 : old <+: (c :: cs) ++ b :: [] := by simpa using h
          exact prefix_of_not_mem hb h2
        rw [replaceScan_cons_of_no_match hp', replaceScan_cons_of_no_match hp,
          ih 0 (Nat.zero_le _), List.cons_append]

/-- The scan leaves a stretch `w` followed by `q` alone when `old` does not occur
in `w` and does not contain `q`. -/
theorem replaceScan_frame {old new : Str} {q : Char} (hne : old ≠ []) (hq : q ∉ old)
    (w t : Str) (hw : ¬ old <:+: w) :
    replaceScan old new 0 (w ++ q :: t) = w ++ q :: replaceScan old new 0 t := by
  induction w with
  | nil => simpa using replaceScan_cons_of_not_mem t hne hq
  | cons c w ih =>
    have hp : ¬ old <+: c :: (w ++ q :: t) := by
      intro h
      have h2 : old <+: (c :: w) ++ q :: t := by simpa using h
      exact hw (prefix_of_not_mem hq h2).isInfix
    have hw' : ¬ old <:+: w := fun h => hw (List.infix_cons h)
    rw [List.cons_append, replaceScan_cons_of_no_match hp, ih hw', List.cons_append]

/-- If the output of the scan still starts with `w` followed by `q`, where `w`
has no comma, then nothing was replaced inside `w`. -/
theorem replaceScan_keeps_key {v : Str} {q : Char} (hne : v ≠ []) (hq : q ∉ v)
    (hqc : q ≠ ',') (w t : Str) (hw : ',' ∉ w)
    (h : w ++ [q] <+: replaceScan v (v ++ omitSuffix) 0 (w ++ q :: t)) :
    replaceScan v (v ++ omitSuffix) 0 (w ++ q :: t)
      = w ++ q :: replaceScan v (v ++ omitSuffix) 0 t := by
  induction w with
  | nil => simpa using replaceScan_cons_of_not_mem t hne hq
  | cons c w ih =>
    by_cases hp : v <+: c :: (w ++ q :: t)
    · exfalso
      have h2 : v <+: (c :: w) ++ q :: t := by simpa using hp
      obtain ⟨z, hz⟩ := prefix_of_not_mem hq h2
      rw [show (c :: w) ++ q :: t = c :: (w ++ q :: t) from rfl,
        replaceScan_of_match hne hp, ← hz] at h
      simp only [List.append_assoc, List.prefix_append_right_inj] at h
      have hcomma : omitSuffix = ',' :: "omitempty".toList := rfl
      rw [hcomma] at h
      cases z with
      | nil =>
        simp only [List.nil_append, List.cons_append] at h
        exact hqc (List.cons_prefix_cons.1 h).1
      | cons d ds =>
        simp only [List.cons_append] at h
        have hd : d = ',' := (List.cons_prefix_cons.1 h).1
        apply hw
        rw [← hz, hd]
        simp
    · have h' : w ++ [q] <+: replaceScan v (v ++ omitSuffix) 0 (w ++ q :: t) := by
        simp only [List.cons_append] at h
        rw [replaceScan_cons_of_no_match hp] at h
        simpa using (List.cons_prefix_cons.1 h).2
      have hw' : ',' ∉ w := fun hm => hw (List.mem_cons_of_mem _ hm)
      rw [List.cons_append, replaceScan_cons_of_no_match hp, ih hw' h', List.cons_append]

theorem firstSubmatch_omitSuffix_append (t : Str) :
    firstSubmatch (omitSuffix ++ t) = firstSubmatch t := by
  have h : omitSuffix ++ t
      = ',' :: 'o' :: 'm' :: 'i' :: 't' :: 'e' :: 'm' :: 'p' :: 't' :: 'y' :: t := rfl
  rw [h]
  repeat rw [firstSubmatch_cons_ne _ (by decide)]

/-- When the captured value is empty, `strings.Replace` puts `,omitempty` around
every rune, and the pattern matches nowhere in the result. -/
theorem firstSubmatch_replace_empty (s : Str) :
    firstSubmatch (Replace s [] ([] ++ omitSuffix)) = none := by
  have key : ∀ u : Str, firstSubmatch (u.flatMap (fun c => c :: omitSuffix)) = none := by
    intro u
    induction u with
    | nil => simp [firstSubmatch]
    | cons c cs ih =>
      have hm : matchHere (c :: (omitSuffix ++ cs.flatMap (fun c => c :: omitSuffix)))
          = none := by
        have h : omitSuffix = ',' :: "omitempty".toList := rfl
        rw [h]
        simp [matchHere, startsWith, jsonKey, List.isPrefixOf]
      rw [List.flatMap_cons, List.cons_append, firstSubmatch_cons, hm]
      simp only [Option.orElse]
      rw [firstSubmatch_omitSuffix_append]
      exact ih
  simp only [Replace, List.isEmpty_nil, if_true, List.nil_append]
  rw [firstSubmatch_omitSuffix_append]
  exact key s

/-! ## Idempotence of the tag amendment on raw string literals -/

theorem jsonKey_eq : jsonKey = '\x60' :: ("json:".toList ++ ['"']) := rfl

/-- A raw string literal on which the pattern matches at the start, taken apart:
the captured value and the rest have no backtick. -/
theorem raw_match_parts {body v rest : Str} (hb : '\x60' ∉ body)
    (hs : '\x60' :: (body ++ ['\x60']) = jsonKey ++ v ++ '"' :: rest) :
    ∃ rest0, rest = rest0 ++ ['\x60'] ∧ body = "json:".toList ++ '"' :: (v ++ '"' :: rest0)
      ∧ '\x60' ∉ v ∧ '\x60' ∉ rest0 := by
  rw [jsonKey_eq] at hs
  simp only [List.cons_append, List.cons.injEq, true_and, List.append_assoc] at hs
  rcases List.eq_nil_or_concat rest with rfl | ⟨rest0, b, hrest⟩
  · have h1 : body ++ ['\x60'] = ("json:".toList ++ '"' :: v) ++ ['"'] := by
      simpa [List.append_assoc] using hs
    have h2 := (List.append_inj' h1 rfl).2
    simp at h2
  · rw [List.concat_eq_append] at hrest
    subst hrest
    have h1 : body ++ ['\x60'] = ("json:".toList ++ '"' :: (v ++ '"' :: rest0)) ++ [b] := by
      simpa [List.append_assoc] using hs
    obtain ⟨h2, h3⟩ := List.append_inj' h1 rfl
    simp only [List.cons.injEq, and_true] at h3
    subst h3
    refine ⟨rest0, rfl, h2, ?_, ?_⟩
    · intro hm; apply hb; rw [h2]; simp [hm]
    · intro hm; apply hb; rw [h2]; simp [hm]

/-- The scan of `strings.Replace` on a raw string literal, for a non-empty value
without a backtick: the result is again a backtick, a text without backticks and
a backtick. -/
theorem replaceScan_raw {v : Str} (body : Str) (hne : v ≠ []) (hv : '\x60' ∉ v)
    (hb : '\x60' ∉ body) :
    replaceScan v (v ++ omitSuffix) 0 ('\x60' :: (body ++ ['\x60']))
        = '\x60' :: (replaceScan v (v ++ omitSuffix) 0 body ++ ['\x60'])
      ∧ '\x60' ∉ replaceScan v (v ++ omitSuffix) 0 body := by
  constructor
  · rw [replaceScan_cons_of_not_mem _ hne hv, replaceScan_concat hne hv 0 body (Nat.zero_le _)]
  · intro hm
    rcases mem_replaceScan 0 body hm with h | h
    · exact hb h
    · rcases List.mem_append.1 h with h | h
      · exact hv h
      · revert h; decide

/-- On a raw string literal whose value is non-empty and has no omit-marker, if
the pattern still matches after the replacement, then the key text was left
alone and the value now ends in `,omitempty`. -/
theorem replaceScan_raw_match {body v rest w : Str} (hne : v ≠ []) (hq : '"' ∉ v)
    (hb : '\x60' ∉ body)
    (hs : '\x60' :: (body ++ ['\x60']) = jsonKey ++ v ++ '"' :: rest)
    (hm : matchHere (replaceScan v (v ++ omitSuffix) 0 ('\x60' :: (body ++ ['\x60'])))
      = some w) :
    replaceScan v (v ++ omitSuffix) 0 ('\x60' :: (body ++ ['\x60']))
      = jsonKey ++ (v ++ omitSuffix) ++ '"' :: replaceScan v (v ++ omitSuffix) 0 rest := by
  obtain ⟨rest0, -, -, hv, -⟩ := raw_match_parts hb hs
  obtain ⟨rest2, hs2, -, -⟩ := matchHere_eq_some.1 hm
  have hbody : body ++ ['\x60'] = "json:".toList ++ '"' :: (v ++ '"' :: rest) := by
    rw [jsonKey_eq] at hs
    simpa [List.append_assoc] using hs
  rw [hbody] at hs2 ⊢
  rw [replaceScan_cons_of_not_mem _ hne hv] at hs2 ⊢
  have hpre : "json:".toList ++ ['"']
      <+: replaceScan v (v ++ omitSuffix) 0 ("json:".toList ++ '"' :: (v ++ '"' :: rest)) := by
    rw [jsonKey_eq] at hs2
    simp only [List.cons_append, List.cons.injEq, true_and] at hs2
    rw [hs2]
    exact ⟨w ++ '"' :: rest2, by simp [List.append_assoc]⟩
  rw [replaceScan_keeps_key hne hq (by decide) _ _ (by decide) hpre,
    replaceScan_append_old _ hne, replaceScan_cons_of_not_mem _ hne hq, jsonKey_eq]
  simp [List.append_assoc]

theorem infix_omitMarker_append (v : Str) : omitMarker <:+: v ++ omitSuffix :=
  ⟨v ++ [','], [], by simp [omitSuffix, omitMarker]⟩

/-- Calling `addOmitemptyTag` a second time changes nothing, on every raw string
literal. -/
theorem addOmitemptyValue_idem_raw (s : Str) (h : isRawLit s = true) :
    addOmitemptyValue (addOmitemptyValue s) = addOmitemptyValue s := by
  obtain ⟨body, rfl, hb⟩ := (isRawLit_iff s).1 h
  cases hf : firstSubmatch ('\x60' :: (body ++ ['\x60'])) with
  | none => rw [addOmitemptyValue_of_none hf, addOmitemptyValue_of_none hf]
  | some v =>
    by_cases hv : omitMarker <:+: v
    · rw [addOmitemptyValue_of_marker hf hv, addOmitemptyValue_of_marker hf hv]
    · rw [addOmitemptyValue_of_fresh hf hv]
      cases v with
      | nil => exact addOmitemptyValue_of_none (firstSubmatch_replace_empty _)
      | cons d ds =>
        have hne : d :: ds ≠ [] := by simp
        rw [firstSubmatch_raw body hb] at hf
        obtain ⟨rest, hs, hq, -⟩ := matchHere_eq_some.1 hf
        obtain ⟨rest0, -, -, hbv, -⟩ := raw_match_parts hb hs
        have hR : Replace ('\x60' :: (body ++ ['\x60'])) (d :: ds) (d :: ds ++ omitSuffix)
            = replaceScan (d :: ds) (d :: ds ++ omitSuffix) 0 ('\x60' :: (body ++ ['\x60'])) := by
          simp [Replace]
        rw [hR]
        obtain ⟨hshape, hfree⟩ := replaceScan_raw body hne hbv hb
        cases hm : matchHere (replaceScan (d :: ds) (d :: ds ++ omitSuffix) 0
            ('\x60' :: (body ++ ['\x60']))) with
        | none =>
          apply addOmitemptyValue_of_none
          rw [hshape, firstSubmatch_raw _ hfree, ← hshape]
          exact hm
        | some w =>
          have hx := replaceScan_raw_match hne hq hb hs hm
          have hw : firstSubmatch (replaceScan (d :: ds) (d :: ds ++ omitSuffix) 0
              ('\x60' :: (body ++ ['\x60']))) = some (d :: ds ++ omitSuffix) := by
            apply firstSubmatch_of_matchHere
            rw [hx]
            refine matchHere_eq_some.2 ⟨_, rfl, ?_, ?_⟩
            · intro hmem
              rcases List.mem_append.1 hmem with h1 | h1
              · exact hq h1
              · revert h1; decide
            · intro hmem
              rcases List.mem_append.1 hmem with h1 | h1
              · exact (matchHere_eq_some.1 hf).choose_spec.2.2 h1
              · revert h1; decide
          exact addOmitemptyValue_of_marker hw (infix_omitMarker_append _)

/-! ## Further facts used by the claims -/

theorem eq_of_append_quote {q : Char} {v w r r' : Str} (hv : q ∉ v) (hw : q ∉ w)
    (h : v ++ q :: r = w ++ q :: r') : v = w := by
  induction v generalizing w with
  | nil =>
    cases w with
    | nil => rfl
    | cons d ds =>
      simp only [List.nil_append, List.cons_append, List.cons.injEq] at h
      exact absurd (List.mem_cons.2 (Or.inl h.1)) hw
  | cons c cs ih =>
    cases w with
    | nil =>
      simp only [List.nil_append, List.cons_append, List.cons.injEq] at h
      exact absurd (List.mem_cons.2 (Or.inl h.1.symm)) hv
    | cons d ds =>
      simp only [List.cons_append, List.cons.injEq] at h
      rw [h.1, ih (fun hm => hv (List.mem_cons_of_mem _ hm))
        (fun hm => hw (List.mem_cons_of_mem _ hm)) h.2]

/-- An annotation that starts with the key text and a value holding the
omit-marker is a fixed point of the tag amendment. -/
theorem addOmitemptyValue_fixed {v rest : Str} (hq : '"' ∉ v)
    (hlit : isRawLit (jsonKey ++ v ++ '"' :: rest) = true ∨ '\n' ∉ v)
    (hm : omitMarker <:+: v) :
    addOmitemptyValue (jsonKey ++ v ++ '"' :: rest) = jsonKey ++ v ++ '"' :: rest := by
  rcases hlit with hraw | hn
  · obtain ⟨body, hs, hb⟩ := (isRawLit_iff _).1 hraw
    cases hf : firstSubmatch (jsonKey ++ v ++ '"' :: rest) with
    | none => exact addOmitemptyValue_of_none hf
    | some w =>
      have hf' := hf
      rw [hs, firstSubmatch_raw body hb, ← hs] at hf'
      obtain ⟨rest', h1, h2, -⟩ := matchHere_eq_some.1 hf'
      have h3 : v ++ '"' :: rest = w ++ '"' :: rest' := by
        simpa [List.append_assoc] using h1
      have hvw : v = w := eq_of_append_quote hq h2 h3
      subst hvw
      exact addOmitemptyValue_of_marker hf hm
  · have hf : firstSubmatch (jsonKey ++ v ++ '"' :: rest) = some v :=
      firstSubmatch_of_matchHere (matchHere_eq_some.2 ⟨rest, rfl, hq, hn⟩)
    exact addOmitemptyValue_of_marker hf hm

theorem iterate_fixed_value {s : Str} (h : addOmitemptyValue s = s) (k : Nat) :
    addOmitemptyValue^[k] s = s :=
  Function.iterate_fixed h k

theorem tagAfterSynth_of_some {lowerRune : Char → Char} {fld : Field} {tag : Str}
    (h : fld.Tag = some tag) : tagAfterSynth lowerRune fld = tag := by
  simp [tagAfterSynth, h]

theorem tagAfterSynth_of_none {lowerRune : Char → Char} {fld : Field} {n : Str}
    {ns : List Str} (h : fld.Tag = none) (hn : fld.Names = n :: ns) :
    tagAfterSynth lowerRune fld = synthTag lowerRune n := by
  simp [tagAfterSynth, h, hn]

theorem synthTag_raw (lowerRune : Char → Char) (n : Str)
    (h : ∀ c ∈ n, lowerRune c ≠ '\x60') : isRawLit (synthTag lowerRune n) = true := by
  rw [isRawLit_iff]
  refine ⟨"json:\"".toList ++ ToLower lowerRune n ++ ['"'], ?_, ?_⟩
  · have h1 : ("`json:\"".toList : Str) = '\x60' :: "json:\"".toList := rfl
    have h2 : ("\"`".toList : Str) = ['"', '\x60'] := rfl
    simp [synthTag, h1, h2]
  · intro hm
    rcases List.mem_append.1 hm with hm | hm
    · rcases List.mem_append.1 hm with hm | hm
      · revert hm; decide
      · obtain ⟨c, hc, hlc⟩ := List.mem_map.1 hm
        exact h c hc hlc
    · revert hm; decide

theorem toLower_ne_backtick (c : Char) (h : identRune c = true) : c.toLower ≠ '\x60' := by
  unfold Char.toLower
  simp only
  split
  · rename_i hc
    obtain ⟨h1, h2⟩ := hc
    generalize c.toNat = n at h1 h2
    interval_cases n <;> decide
  · rintro rfl
    revert h
    decide

/-- The type tests applied to their own output: the type stays, and
`addOmitemptyTag` is called again only for a pointer type, for which it had been
called before. -/
theorem typeAction_again (typesList : typesListType) (typ : Expr) :
    (typeAction typesList (typeAction typesList typ).1).1 = (typeAction typesList typ).1 ∧
      ((typeAction typesList (typeAction typesList typ).1).2 = 0 ∨
        ((typeAction typesList (typeAction typesList typ).1).2 = 1 ∧
          1 ≤ (typeAction typesList typ).2)) := by
  cases typ with
  | Ident name =>
    by_cases hp : needPointer typesList name = true
    · simp [typeAction, hp, astPtrExpr]
    · simp [typeAction, hp]
  | StarExpr x => simp [typeAction]
  | ArrayType len elt =>
    cases elt with
    | Ident name =>
      by_cases hp : needPointer typesList name = true
      · simp [typeAction, hp, astPtrExpr]
      · simp [typeAction, hp]
    | _ => simp [typeAction]
  | MapType key value =>
    cases value with
    | Ident name =>
      by_cases hp : needPointer typesList name = true
      · simp [typeAction, hp, astPtrExpr]
      · simp [typeAction, hp]
    | _ => simp [typeAction]
  | other src => simp [typeAction]

theorem iterate_of_idem {s : Str} (h : addOmitemptyValue (addOmitemptyValue s) = addOmitemptyValue s)
    (j : Nat) : addOmitemptyValue^[j + 1] s = addOmitemptyValue s := by
  rw [Function.iterate_succ_apply]
  exact Function.iterate_fixed h j

/-- The loop body is idempotent on a field whose annotation, after the tag
synthesis, is a raw string literal. -/
theorem rewriteField_idem (lowerRune : Char → Char) (typesList : typesListType) (fld : Field)
    (hraw : fld.Names ≠ [] → isRawLit (tagAfterSynth lowerRune fld) = true) :
    rewriteField lowerRune typesList (rewriteField lowerRune typesList fld)
      = rewriteField lowerRune typesList fld := by
  by_cases hn : fld.Names = []
  · rw [rewriteField_embedded _ _ _ hn, rewriteField_embedded _ _ _ hn]
  · have hidem := addOmitemptyValue_idem_raw _ (hraw hn)
    have hn' : (rewriteField lowerRune typesList fld).Names ≠ [] := by
      rw [rewriteField_names]; exact hn
    rw [rewriteField_named _ _ _ hn', rewriteField_named _ _ fld hn]
    obtain ⟨h1, h2⟩ := typeAction_again typesList fld.Typ
    simp only [h1, tagAfterSynth, Option.getD_some, Field.mk.injEq, true_and, Option.some.injEq]
    rcases h2 with h0 | ⟨h1', hk⟩
    · rw [h0]; rfl
    · obtain ⟨j, hj⟩ : ∃ j, (typeAction typesList fld.Typ).2 = j + 1 :=
        ⟨(typeAction typesList fld.Typ).2 - 1, by omega⟩
      rw [h1', hj]
      have := iterate_of_idem hidem j
      simp only [tagAfterSynth] at this
      rw [this, Function.iterate_one]
      simpa [tagAfterSynth] using hidem

/-! ## The json value segment and the count of omit-markers -/

theorem upToQuote_append (v rest : Str) (hq : '"' ∉ v) :
    upToQuote (v ++ '"' :: rest) = some v := by
  induction v with
  | nil => simp [upToQuote]
  | cons c cs ih =>
    have hc : c ≠ '"' := fun h => hq (by simp [h])
    rw [List.cons_append, upToQuote, if_neg hc, ih (fun hm => hq (List.mem_cons_of_mem _ hm))]
    rfl

theorem jsonValueSegment_key (v rest : Str) (hq : '"' ∉ v) :
    jsonValueSegment (jsonKey ++ v ++ '"' :: rest) = some v := by
  have h : jsonKey ++ v ++ '"' :: rest
      = '\x60' :: ("json:\"".toList ++ (v ++ '"' :: rest)) := by
    rw [jsonKey_eq]; simp [List.append_assoc]
  have hp : startsWith ('\x60' :: ("json:\"".toList ++ (v ++ '"' :: rest))) jsonKey = true :=
    (startsWith_iff _ _).2 ⟨v ++ '"' :: rest, by rw [jsonKey_eq]; simp [List.append_assoc]⟩
  rw [h, jsonValueSegment, if_pos hp]
  have hd : List.drop jsonKey.length ('\x60' :: ("json:\"".toList ++ (v ++ '"' :: rest)))
      = v ++ '"' :: rest := rfl
  rw [hd, upToQuote_append v rest hq]

theorem countOcc_pos {p s : Str} (h : p <:+: s) : 1 ≤ countOcc p s := by
  induction s with
  | nil =>
    have hp : p = [] := List.infix_nil.1 h
    simp [countOcc, hp]
  | cons c cs ih =>
    rw [countOcc]
    rcases List.infix_cons_iff.1 h with h1 | h1
    · rw [if_pos ((startsWith_iff _ _).2 h1)]
      omega
    · have := ih h1
      omega

/-- A value without the omit-marker has it exactly once after `,omitempty` is
appended. -/
theorem countOcc_append_omitSuffix (v : Str) (h : ¬ omitMarker <:+: v) :
    countOcc omitMarker (v ++ omitSuffix) = 1 := by
  induction v with
  | nil => decide
  | cons c cs ih =>
    have hcs : ¬ omitMarker <:+: cs := fun hi => h (List.infix_cons hi)
    have hp : ¬ startsWith (c :: (cs ++ omitSuffix)) omitMarker = true := by
      rw [startsWith_iff]
      intro hpre
      have hsuf : omitSuffix = ',' :: omitMarker := rfl
      have h2 : omitMarker <+: (c :: cs) ++ ',' :: omitMarker := by
        rw [hsuf] at hpre
        simpa using hpre
      exact h (prefix_of_not_mem (by decide) h2).isInfix
    rw [List.cons_append, countOcc, if_neg hp, ih hcs]

/-- The exact effect of the tag amendment when the value is non-empty, has no
omit-marker and does not occur inside the key text. -/
theorem addOmitemptyValue_fresh_form {v rest : Str} (hne : v ≠ []) (hq : '"' ∉ v)
    (hn : '\n' ∉ v) (hm : ¬ omitMarker <:+: v) (hk : ¬ v <:+: "\x60json:".toList) :
    addOmitemptyValue (jsonKey ++ v ++ '"' :: rest)
      = jsonKey ++ (v ++ omitSuffix) ++ '"' :: replaceScan v (v ++ omitSuffix) 0 rest := by
  have hf : firstSubmatch (jsonKey ++ v ++ '"' :: rest) = some v :=
    firstSubmatch_of_matchHere (matchHere_eq_some.2 ⟨rest, rfl, hq, hn⟩)
  have hR : Replace (jsonKey ++ v ++ '"' :: rest) v (v ++ omitSuffix)
      = replaceScan v (v ++ omitSuffix) 0 (jsonKey ++ v ++ '"' :: rest) := by
    have : v.isEmpty = false := by
      cases v with
      | nil => exact absurd rfl hne
      | cons d ds => rfl
    simp [Replace, this]
  have hkey : jsonKey = "\x60json:".toList ++ ['"'] := rfl
  have hshape : jsonKey ++ v ++ '"' :: rest
      = "\x60json:".toList ++ '"' :: (v ++ '"' :: rest) := by
    rw [hkey]; simp [List.append_assoc]
  rw [addOmitemptyValue_of_fresh hf hm, hR, hshape, replaceScan_frame hne hq _ _ hk,
    replaceScan_append_old _ hne, replaceScan_cons_of_not_mem _ hne hq, hkey]
  simp [List.append_assoc]

/-- Under the conditions of `addOmitemptyValue_fresh_form`, or when the value
holds the marker once, any number of calls leaves the marker exactly once. -/
theorem hasMarkerOnce_iterate {v rest : Str} (hne : v ≠ []) (hq : '"' ∉ v)
    (hn : '\n' ∉ v) (hk : ¬ v <:+: "\x60json:".toList) (hc : countOcc omitMarker v ≤ 1)
    (j : Nat) :
    hasMarkerOnce (some (addOmitemptyValue^[j + 1] (jsonKey ++ v ++ '"' :: rest))) = true := by
  by_cases hm : omitMarker <:+: v
  · have hfix : addOmitemptyValue (jsonKey ++ v ++ '"' :: rest)
        = jsonKey ++ v ++ '"' :: rest := addOmitemptyValue_fixed hq (Or.inr hn) hm
    rw [Function.iterate_fixed hfix]
    have h1 := countOcc_pos hm
    simp only [hasMarkerOnce, Option.some_bind, jsonValueSegment_key v rest hq, beq_iff_eq]
    omega
  · have hq' : '"' ∉ v ++ omitSuffix := by
      intro hmem
      rcases List.mem_append.1 hmem with h1 | h1
      · exact hq h1
      · revert h1; decide
    have hn' : '\n' ∉ v ++ omitSuffix := by
      intro hmem
      rcases List.mem_append.1 hmem with h1 | h1
      · exact hn h1
      · revert h1; decide
    have hfix := @addOmitemptyValue_fixed (v ++ omitSuffix)
      (replaceScan v (v ++ omitSuffix) 0 rest) hq' (Or.inr hn') (infix_omitMarker_append v)
    rw [Function.iterate_succ_apply, addOmitemptyValue_fresh_form hne hq hn hm hk,
      Function.iterate_fixed hfix]
    simp only [hasMarkerOnce, Option.some_bind, jsonValueSegment_key _ _ hq', beq_iff_eq]
    exact countOcc_append_omitSuffix v hm

/-! ## The registry -/

theorem lookup_filter_ne (t : typesListType) (n x : Str) (h : n ≠ x) :
    List.lookup n (t.filter (fun e => e.1 ≠ x)) = List.lookup n t := by
  induction t with
  | nil => rfl
  | cons e es ih =>
    obtain ⟨k, b⟩ := e
    by_cases hk : k = x
    · subst hk
      have hnk : (n == k) = false := by simpa using h
      simpa [List.filter, List.lookup_cons, hnk] using ih
    · by_cases hnk : n = k
      · subst hnk
        simp [List.filter, hk, List.lookup_cons]
      · have hnk' : (n == k) = false := by simpa using hnk
        simpa [List.filter, hk, List.lookup_cons, hnk'] using ih

theorem Contains_assign (t : typesListType) (x n : Str) (v : Bool) :
    (t.assign x v).Contains n = true ↔ n = x ∨ t.Contains n = true := by
  by_cases h : n = x
  · subst h
    simp [typesListType.assign, typesListType.Contains]
  · have hnx : (n == x) = false := by simpa using h
    simp only [typesListType.assign, typesListType.Contains, List.lookup_cons, hnx,
      lookup_filter_ne t n x h, h, false_or]

theorem Contains_LoadList (t : typesListType) (names : List Str) (n : Str) :
    (t.LoadList names).Contains n = true ↔ n ∈ names ∨ t.Contains n = true := by
  induction names generalizing t with
  | nil => simp [typesListType.LoadList]
  | cons x xs ih =>
    have hstep : typesListType.LoadList t (x :: xs)
        = typesListType.LoadList (t.assign x true) xs := rfl
    rw [hstep, ih, Contains_assign, List.mem_cons]
    constructor
    · rintro (h | h | h)
      · exact Or.inl (Or.inr h)
      · exact Or.inl (Or.inl h)
      · exact Or.inr h
    · rintro ((h | h) | h)
      · exact Or.inr (Or.inl h)
      · exact Or.inl h
      · exact Or.inr (Or.inr h)

theorem Contains_empty (n : Str) : typesListType.Contains [] n = false := rfl

/-! ## The type shapes the loop leaves alone -/

theorem typeAction_of_other (typesList : typesListType) (typ : Expr)
    (h : isOtherShape typ = true) : typeAction typesList typ = (typ, 0) := by
  cases typ with
  | Ident name => simp [isOtherShape] at h
  | StarExpr x => simp [isOtherShape] at h
  | ArrayType len elt =>
    cases elt with
    | Ident name => simp [isOtherShape] at h
    | _ => simp [typeAction]
  | MapType key value =>
    cases value with
    | Ident name => simp [isOtherShape] at h
    | _ => simp [typeAction]
  | other src => simp [typeAction]

theorem rewriteField_of_other (lowerRune : Char → Char) (typesList : typesListType)
    (fld : Field) (hn : fld.Names ≠ []) (h : isOtherShape fld.Typ = true) :
    rewriteField lowerRune typesList fld
      = ⟨fld.Names, fld.Typ, some (tagAfterSynth lowerRune fld)⟩ := by
  rw [rewriteField_named _ _ _ hn, typeAction_of_other typesList fld.Typ h]
  rfl

theorem isOtherShape_array (len : Option Str) (elt : Expr) (h : ∀ name, elt ≠ .Ident name) :
    isOtherShape (.ArrayType len elt) = true := by
  cases elt with
  | Ident name => exact absurd rfl (h name)
  | _ => rfl

theorem isOtherShape_map (key value : Expr) (h : ∀ name, value ≠ .Ident name) :
    isOtherShape (.MapType key value) = true := by
  cases value with
  | Ident name => exact absurd rfl (h name)
  | _ => rfl

theorem replaceScan_of_absent {old new : Str} (s : Str) (h : ¬ old <:+: s) :
    replaceScan old new 0 s = s := by
  induction s with
  | nil => simp [replaceScan]
  | cons c cs ih =>
    have hp : ¬ old <+: c :: cs := fun hp => h hp.isInfix
    rw [replaceScan_cons_of_no_match hp, ih (fun hi => h (List.infix_cons hi))]

/-! ## The claims -/

/-- Claim C1, as amended: a named field whose declared type is a bare named type
`T` in the registry ends with the type pointer-to-`T`, whatever its annotation.
When the annotation it carries after the tag synthesis starts with the key text
and a value `V` that is non-empty, has no double quote and no newline, does not
occur inside the key text and holds `omitempty` at most once, the json value
segment of the output annotation contains `omitempty` exactly once. -/
theorem registry_named_type_pointer (lowerRune : Char → Char) (typesList : typesListType)
    (fld : Field) (T : Str) (hnames : fld.Names ≠ []) (ht : fld.Typ = .Ident T)
    (hreg : needPointer typesList T = true) :
    (rewriteField lowerRune typesList fld).Typ = .StarExpr (.Ident T) ∧
      ∀ v rest, tagAfterSynth lowerRune fld = jsonKey ++ v ++ '"' :: rest →
        v ≠ [] → '"' ∉ v → '\n' ∉ v → ¬ v <:+: "\x60json:".toList →
        countOcc omitMarker v ≤ 1 →
        hasMarkerOnce (rewriteField lowerRune typesList fld).Tag = true := by
  rw [rewriteField_named _ _ _ hnames]
  simp only [ht, typeAction, hreg, if_true, astPtrExpr, true_and]
  intro v rest htag hne hq hn hk hc
  rw [htag]
  exact hasMarkerOnce_iterate hne hq hn hk hc 1

theorem registry_named_type_pointer_witness :
    (rewriteField Char.toLower [("Ptr".toList, true)]
        ⟨["VPtr".toList], .Ident "Ptr".toList, none⟩).Typ
        = .StarExpr (.Ident "Ptr".toList) ∧
      hasMarkerOnce (rewriteField Char.toLower [("Ptr".toList, true)]
        ⟨["VPtr".toList], .Ident "Ptr".toList, none⟩).Tag = true :=
  have h := registry_named_type_pointer Char.toLower [("Ptr".toList, true)]
    ⟨["VPtr".toList], .Ident "Ptr".toList, none⟩ "Ptr".toList (by decide) rfl (by decide)
  ⟨h.1, h.2 "vptr".toList "`".toList rfl (by decide) (by decide) (by decide) (by decide)
    (by decide)⟩

/-- Claim C1 fails as stated: with `Ptr` in the registry, the field `VPtr Ptr`
carrying the raw string literal with the only key `yaml` gets the pointer type,
but its annotation has no json value segment holding `omitempty` once. -/
theorem registry_named_type_marker_counterexample :
    isRawLit "`yaml:\"v\"`".toList = true ∧
      needPointer [("Ptr".toList, true)] "Ptr".toList = true ∧
      (rewriteField Char.toLower [("Ptr".toList, true)]
        ⟨["VPtr".toList], .Ident "Ptr".toList, some "`yaml:\"v\"`".toList⟩)
        = ⟨["VPtr".toList], .StarExpr (.Ident "Ptr".toList), some "`yaml:\"v\"`".toList⟩ ∧
      hasMarkerOnce (rewriteField Char.toLower [("Ptr".toList, true)]
        ⟨["VPtr".toList], .Ident "Ptr".toList, some "`yaml:\"v\"`".toList⟩).Tag = false := by
  decide

/-- Claim C2, the code at the failing input: with an empty registry, the field
`J *Ptr` without a tag ends with an annotation in which the key text itself was
rewritten, so the annotation has no json serialization key at all, where the
claim asks for the key `j`. -/
theorem synthesized_key_rewritten :
    (rewriteField Char.toLower [] ⟨["J".toList], .StarExpr (.Ident "Ptr".toList), none⟩).Tag
        = some "`j,omitemptyson:\"j,omitempty\"`".toList ∧
      ((rewriteField Char.toLower []
        ⟨["J".toList], .StarExpr (.Ident "Ptr".toList), none⟩).Tag.bind jsonSerializationKey)
        = none ∧
      ToLower Char.toLower "J".toList = "j".toList := by
  decide

/-- Claim C3: the whole rewrite is idempotent.  For every registry and every
field list whose field names are identifiers and whose annotations are absent or
raw string literals, the loop applied to its own output yields that output again:
same types, same annotations, no second omit-marker and no new synthesized
annotation.  The lower-casing table is only required to send no identifier rune
to a backtick, as `unicode.ToLower` does. -/
theorem rewriteFields_idempotent (lowerRune : Char → Char) (typesList : typesListType)
    (fields : List Field)
    (hlow : ∀ c, identRune c = true → lowerRune c ≠ '\x60')
    (hnames : ∀ fld ∈ fields, ∀ n ∈ fld.Names, isIdentifier n = true)
    (htags : ∀ fld ∈ fields, ∀ tag, fld.Tag = some tag → isRawLit tag = true) :
    rewriteFields lowerRune typesList (rewriteFields lowerRune typesList fields)
      = rewriteFields lowerRune typesList fields := by
  simp only [rewriteFields_eq_map, List.map_map]
  apply List.map_congr_left
  intro fld hfld
  apply rewriteField_idem
  intro hne
  cases htag : fld.Tag with
  | some tag =>
    rw [tagAfterSynth_of_some htag]
    exact htags fld hfld tag htag
  | none =>
    obtain ⟨n, ns, hn⟩ := List.exists_cons_of_ne_nil hne
    rw [tagAfterSynth_of_none htag hn]
    apply synthTag_raw
    intro c hc
    apply hlow
    have hid := hnames fld hfld n (by simp [hn])
    simp only [isIdentifier, Bool.and_eq_true, List.all_eq_true] at hid
    exact hid.2 c hc

theorem rewriteFields_idempotent_witness :
    rewriteFields Char.toLower [("Ptr".toList, true)]
        (rewriteFields Char.toLower [("Ptr".toList, true)]
          [⟨["Boo".toList], .Ident "bool".toList,
              some "`json:\"boo,omitempty\" yaml:\"booY\"`".toList⟩,
            ⟨["J".toList], .Ident "Ptr".toList, none⟩,
            ⟨["APtr".toList], .ArrayType none (.Ident "Ptr".toList), none⟩,
            ⟨[], .Ident "Base".toList, none⟩])
      = rewriteFields Char.toLower [("Ptr".toList, true)]
          [⟨["Boo".toList], .Ident "bool".toList,
              some "`json:\"boo,omitempty\" yaml:\"booY\"`".toList⟩,
            ⟨["J".toList], .Ident "Ptr".toList, none⟩,
            ⟨["APtr".toList], .ArrayType none (.Ident "Ptr".toList), none⟩,
            ⟨[], .Ident "Base".toList, none⟩] :=
  rewriteFields_idempotent Char.toLower [("Ptr".toList, true)] _ toLower_ne_backtick
    (by decide) (by decide)

/-- Claim C4: `addOmitemptyTag` is idempotent.  For every field whose annotation
is absent or is a raw string literal, calling `addOmitemptyTag` twice leaves the
same field (the same annotation string) as calling it once; the empty json value
and the values that occur inside the key text are included. -/
theorem addOmitemptyTag_idempotent (fld : Field)
    (h : fld.Tag = none ∨ ∃ value, fld.Tag = some value ∧ isRawLit value = true) :
    addOmitemptyTag (addOmitemptyTag fld) = addOmitemptyTag fld := by
  rcases h with h | ⟨value, h, hraw⟩
  · simp [addOmitemptyTag, h]
  · simp [addOmitemptyTag, h, addOmitemptyValue_idem_raw value hraw]

theorem addOmitemptyTag_idempotent_witness :
    addOmitemptyTag (addOmitemptyTag
        ⟨["J".toList], .StarExpr (.Ident "Ptr".toList), some "`json:\"j\"`".toList⟩)
      = addOmitemptyTag
        ⟨["J".toList], .StarExpr (.Ident "Ptr".toList), some "`json:\"j\"`".toList⟩ :=
  addOmitemptyTag_idempotent _ (Or.inr ⟨_, rfl, by decide⟩)

/-- Claim C5, the code at the failing input: on the annotation with the json
value `boo` and a yaml key of the same value, `addOmitemptyTag` appends
`,omitempty` to the yaml value as well, so the text after the json pair is not
left unchanged. -/
theorem other_key_value_rewritten :
    addOmitemptyValue "`json:\"boo\" yaml:\"boo\"`".toList
        = "`json:\"boo,omitempty\" yaml:\"boo,omitempty\"`".toList ∧
      addOmitemptyValue "`json:\"boo\" yaml:\"boo\"`".toList
        ≠ "`json:\"boo,omitempty\" yaml:\"boo\"`".toList := by
  decide

/-- Claim C6: the omit-marker is never duplicated.  For every annotation that
starts with the key text and a json value having `omitempty` among its
comma-separated options (the annotation being a raw string literal, or the value
being free of newlines), `addOmitemptyTag` returns the field unchanged, and the
field rewrite leaves the annotation unchanged for every field carrying it,
whatever its names and type and whatever the registry. -/
theorem omit_marker_not_duplicated (lowerRune : Char → Char) (typesList : typesListType)
    (fld : Field) (v rest : Str)
    (htag : fld.Tag = some (jsonKey ++ v ++ '"' :: rest))
    (hq : '"' ∉ v)
    (hlit : isRawLit (jsonKey ++ v ++ '"' :: rest) = true ∨ '\n' ∉ v)
    (hm : omitMarker ∈ tagOptions v) :
    addOmitemptyTag fld = fld ∧
      (rewriteField lowerRune typesList fld).Tag = some (jsonKey ++ v ++ '"' :: rest) := by
  have hfix := addOmitemptyValue_fixed hq hlit (infix_of_mem_tagOptions hm)
  constructor
  · obtain ⟨names, typ, tag⟩ := fld
    simp only at htag
    subst htag
    simp only [addOmitemptyTag, hfix]
  · by_cases hn : fld.Names = []
    · rw [rewriteField_embedded _ _ _ hn, htag]
    · rw [rewriteField_named _ _ _ hn]
      simp only [tagAfterSynth_of_some htag, iterate_fixed_value hfix]

theorem omit_marker_not_duplicated_witness :
    addOmitemptyTag ⟨["Boo".toList], .Ident "Ptr".toList,
        some (jsonKey ++ "boo,omitempty".toList ++ '"' :: " yaml:\"booY\"`".toList)⟩
      = ⟨["Boo".toList], .Ident "Ptr".toList,
        some (jsonKey ++ "boo,omitempty".toList ++ '"' :: " yaml:\"booY\"`".toList)⟩ ∧
    (rewriteField Char.toLower [("Ptr".toList, true)] ⟨["Boo".toList], .Ident "Ptr".toList,
        some (jsonKey ++ "boo,omitempty".toList ++ '"' :: " yaml:\"booY\"`".toList)⟩).Tag
      = some (jsonKey ++ "boo,omitempty".toList ++ '"' :: " yaml:\"booY\"`".toList) :=
  omit_marker_not_duplicated Char.toLower [("Ptr".toList, true)] _ "boo,omitempty".toList
    " yaml:\"booY\"`".toList rfl (by decide) (Or.inl (by decide)) (by decide)

/-- Claim C7: `addOmitemptyTag` is a no-op on annotations without a recognizable
json key segment.  When the annotation is absent, or its text has no occurrence
of the key text followed, without a newline in between, by a double quote, the
call returns (the function is total) and leaves the field exactly as it was. -/
theorem addOmitemptyTag_noop_without_key (fld : Field)
    (h : fld.Tag = none ∨ ∃ value, fld.Tag = some value ∧
      ∀ a v rest, value = a ++ jsonKey ++ v ++ '"' :: rest → '\n' ∈ v) :
    addOmitemptyTag fld = fld := by
  rcases h with h | ⟨value, h, hno⟩
  · simp [addOmitemptyTag, h]
  · have hf : firstSubmatch value = none := by
      cases hf : firstSubmatch value with
      | none => rfl
      | some v =>
        obtain ⟨a, rest, h1, -, h3⟩ := firstSubmatch_sound hf
        exact absurd (hno a v rest h1) h3
    obtain ⟨names, typ, tag⟩ := fld
    simp only at h
    subst h
    simp [addOmitemptyTag, addOmitemptyValue_of_none hf]

theorem addOmitemptyTag_noop_without_key_witness :
    addOmitemptyTag ⟨["A".toList], .StarExpr (.Ident "T".toList),
        some "`json:\"a\nb\" yaml:\"x\"`".toList⟩
      = ⟨["A".toList], .StarExpr (.Ident "T".toList),
        some "`json:\"a\nb\" yaml:\"x\"`".toList⟩ :=
  addOmitemptyTag_noop_without_key _ (Or.inr ⟨_, rfl, by
    intro a v rest hv
    by_contra hn
    have hsome := firstSubmatch_complete a v rest hn
    rw [← hv] at hsome
    revert hsome
    decide⟩)

/-- Claim C8: embedded (anonymous) fields pass through with zero mutation.  For
every registry and every field without a name, whatever its type (a registry
name and a pointer included) and its annotation, the loop body returns the field
itself, so no tag is synthesized, and the loop emits it in its own slot. -/
theorem embedded_field_untouched (lowerRune : Char → Char) (typesList : typesListType)
    (fld : Field) (h : fld.Names = []) (before after : List Field) :
    rewriteField lowerRune typesList fld = fld ∧
      rewriteFields lowerRune typesList (before ++ fld :: after)
        = rewriteFields lowerRune typesList before
          ++ fld :: rewriteFields lowerRune typesList after := by
  have h1 := rewriteField_embedded lowerRune typesList fld h
  refine ⟨h1, ?_⟩
  simp only [rewriteFields_eq_map, List.map_append, List.map_cons, h1]

theorem embedded_field_untouched_witness :
    rewriteField Char.toLower [("Ptr".toList, true)] ⟨[], .Ident "Ptr".toList, none⟩
        = ⟨[], .Ident "Ptr".toList, none⟩ ∧
      rewriteFields Char.toLower [("Ptr".toList, true)]
          ([⟨["Zoo".toList], .Ident "bool".toList, none⟩]
            ++ ⟨[], .Ident "Ptr".toList, none⟩
              :: [⟨[], .StarExpr (.Ident "Ptr".toList), none⟩])
        = rewriteFields Char.toLower [("Ptr".toList, true)]
            [⟨["Zoo".toList], .Ident "bool".toList, none⟩]
          ++ ⟨[], .Ident "Ptr".toList, none⟩
            :: rewriteFields Char.toLower [("Ptr".toList, true)]
              [⟨[], .StarExpr (.Ident "Ptr".toList), none⟩] :=
  embedded_field_untouched Char.toLower [("Ptr".toList, true)]
    ⟨[], .Ident "Ptr".toList, none⟩ rfl _ _

/-- Claim C9: field order is preserved.  For every registry and every field
list, the output of the loop has the length of the input, and at every index the
output field is the rewrite of the input field at that index and carries the same
names; an embedded field stays in its slot unchanged. -/
theorem rewriteFields_preserves_order (lowerRune : Char → Char) (typesList : typesListType)
    (fields : List Field) :
    (rewriteFields lowerRune typesList fields).length = fields.length ∧
      ∀ i : Nat,
        (rewriteFields lowerRune typesList fields)[i]?
            = (fields[i]?).map (rewriteField lowerRune typesList) ∧
          ((rewriteFields lowerRune typesList fields)[i]?).map Field.Names
            = (fields[i]?).map Field.Names ∧
          ∀ fld, fields[i]? = some fld → fld.Names = [] →
            (rewriteFields lowerRune typesList fields)[i]? = some fld := by
  rw [rewriteFields_eq_map]
  refine ⟨by simp, fun i => ⟨by simp, ?_, ?_⟩⟩
  · cases hi : fields[i]? with
    | none => simp [hi]
    | some fld => simp [hi, rewriteField_names]
  · intro fld hi hn
    simp [hi, rewriteField_embedded _ _ _ hn]

theorem rewriteFields_preserves_order_witness :
    (rewriteFields Char.toLower [("Ptr".toList, true)]
        [⟨["VPtr".toList], .Ident "Ptr".toList, none⟩,
          ⟨[], .Ident "Base".toList, none⟩])[1]?
      = some ⟨[], .Ident "Base".toList, none⟩ :=
  (((rewriteFields_preserves_order Char.toLower [("Ptr".toList, true)]
    [⟨["VPtr".toList], .Ident "Ptr".toList, none⟩,
      ⟨[], .Ident "Base".toList, none⟩]).2 1).2.2)
    ⟨[], .Ident "Base".toList, none⟩ rfl rfl

/-- Claim C10: a named field whose declared type is a bare named type `T` that
is not in the registry keeps the type `T` and gets no omit-marker: an annotation
that was present is returned unchanged, and an absent one becomes exactly the
synthesized tag made of the key text, the lower-cased first name and the closing
quote and backtick. -/
theorem unregistered_named_type_kept (lowerRune : Char → Char) (typesList : typesListType)
    (fld : Field) (n : Str) (ns : List Str) (T : Str)
    (hn : fld.Names = n :: ns) (ht : fld.Typ = .Ident T)
    (hreg : needPointer typesList T = false) :
    (rewriteField lowerRune typesList fld).Typ = .Ident T ∧
      (rewriteField lowerRune typesList fld).Names = fld.Names ∧
      (∀ tag, fld.Tag = some tag → (rewriteField lowerRune typesList fld).Tag = some tag) ∧
      (fld.Tag = none → (rewriteField lowerRune typesList fld).Tag
        = some ("`json:\"".toList ++ ToLower lowerRune n ++ "\"`".toList)) := by
  have hne : fld.Names ≠ [] := by simp [hn]
  rw [rewriteField_named _ _ _ hne]
  simp only [ht, typeAction, hreg, Bool.false_eq_true, if_false, Function.iterate_zero, id_eq]
  refine ⟨trivial, trivial, ?_, ?_⟩
  · intro tag htag
    rw [tagAfterSynth_of_some htag]
  · intro htag
    rw [tagAfterSynth_of_none htag hn]
    rfl

theorem unregistered_named_type_kept_witness :
    (rewriteField Char.toLower [("Ptr".toList, true)]
        ⟨["Zoo".toList], .Ident "bool".toList, none⟩).Typ = .Ident "bool".toList ∧
      (rewriteField Char.toLower [("Ptr".toList, true)]
        ⟨["Zoo".toList], .Ident "bool".toList, none⟩).Tag = some "`json:\"zoo\"`".toList :=
  have h := unregistered_named_type_kept Char.toLower [("Ptr".toList, true)]
    ⟨["Zoo".toList], .Ident "bool".toList, none⟩ "Zoo".toList [] "bool".toList rfl rfl
    (by decide)
  ⟨h.1, h.2.2.2 rfl⟩

/-- Claim C11: the sequence rule.  For every registry and every named field
whose declared type is a slice or an array with a bare named element type `T` in
the registry, the output type is the same sequence (same length) with the element
type pointer-to-`T`, and the output annotation is `addOmitemptyTag` applied once
to the annotation obtained after the tag synthesis. -/
theorem sequence_rule (lowerRune : Char → Char) (typesList : typesListType) (fld : Field)
    (len : Option Str) (T : Str) (hn : fld.Names ≠ [])
    (ht : fld.Typ = .ArrayType len (.Ident T)) (hreg : needPointer typesList T = true) :
    rewriteField lowerRune typesList fld
        = addOmitemptyTag ⟨fld.Names, .ArrayType len (.StarExpr (.Ident T)),
            some (tagAfterSynth lowerRune fld)⟩ ∧
      (rewriteField lowerRune typesList fld).Typ = .ArrayType len (.StarExpr (.Ident T)) ∧
      (rewriteField lowerRune typesList fld).Tag
        = some (addOmitemptyValue (tagAfterSynth lowerRune fld)) := by
  rw [rewriteField_named _ _ _ hn]
  simp [ht, typeAction, hreg, astPtrExpr, addOmitemptyTag]

theorem sequence_rule_witness :
    (rewriteField Char.toLower [("Ptr".toList, true)]
        ⟨["APtr".toList], .ArrayType none (.Ident "Ptr".toList), none⟩).Typ
        = .ArrayType none (.StarExpr (.Ident "Ptr".toList)) ∧
      (rewriteField Char.toLower [("Ptr".toList, true)]
        ⟨["APtr".toList], .ArrayType none (.Ident "Ptr".toList), none⟩).Tag
        = some "`json:\"aptr,omitempty\"`".toList :=
  have h := sequence_rule Char.toLower [("Ptr".toList, true)]
    ⟨["APtr".toList], .ArrayType none (.Ident "Ptr".toList), none⟩ none "Ptr".toList
    (by decide) rfl (by decide)
  ⟨h.2.1, h.2.2⟩

/-- Claim C12: the mapping rule.  For every registry and every named field whose
declared type is a mapping from `K` to a bare named type `V` in the registry, the
output type is the mapping from the unchanged `K` (a registry name included) to
pointer-to-`V`, and the output annotation is `addOmitemptyTag` applied once to
the annotation obtained after the tag synthesis. -/
theorem mapping_rule (lowerRune : Char → Char) (typesList : typesListType) (fld : Field)
    (K : Expr) (V : Str) (hn : fld.Names ≠ [])
    (ht : fld.Typ = .MapType K (.Ident V)) (hreg : needPointer typesList V = true) :
    rewriteField lowerRune typesList fld
        = addOmitemptyTag ⟨fld.Names, .MapType K (.StarExpr (.Ident V)),
            some (tagAfterSynth lowerRune fld)⟩ ∧
      (rewriteField lowerRune typesList fld).Typ = .MapType K (.StarExpr (.Ident V)) ∧
      (rewriteField lowerRune typesList fld).Tag
        = some (addOmitemptyValue (tagAfterSynth lowerRune fld)) := by
  rw [rewriteField_named _ _ _ hn]
  simp [ht, typeAction, hreg, astPtrExpr, addOmitemptyTag]

theorem mapping_rule_witness :
    (rewriteField Char.toLower [("Ptr".toList, true)]
        ⟨["MPtr".toList], .MapType (.Ident "Ptr".toList) (.Ident "Ptr".toList), none⟩).Typ
        = .MapType (.Ident "Ptr".toList) (.StarExpr (.Ident "Ptr".toList)) ∧
      (rewriteField Char.toLower [("Ptr".toList, true)]
        ⟨["MPtr".toList], .MapType (.Ident "Ptr".toList) (.Ident "Ptr".toList), none⟩).Tag
        = some "`json:\"mptr,omitempty\"`".toList :=
  have h := mapping_rule Char.toLower [("Ptr".toList, true)]
    ⟨["MPtr".toList], .MapType (.Ident "Ptr".toList) (.Ident "Ptr".toList), none⟩
    (.Ident "Ptr".toList) "Ptr".toList (by decide) rfl (by decide)
  ⟨h.2.1, h.2.2⟩

/-- Claim C13: the already-optional rule.  For every registry, the empty one
included, and every named field whose declared type is a pointer, the declared
type is unchanged and the output annotation is `addOmitemptyTag` applied to the
annotation obtained after the tag synthesis.  In particular the field
`SPtr *Ptr` without a tag ends with the annotation whose json value is
`sptr,omitempty`, for every registry, as soon as the lower-casing table sends
`SPtr` to `sptr`. -/
theorem already_optional_rule (lowerRune : Char → Char) (typesList : typesListType)
    (fld : Field) (X : Expr) (hn : fld.Names ≠ []) (ht : fld.Typ = .StarExpr X) :
    rewriteField lowerRune typesList fld
        = addOmitemptyTag ⟨fld.Names, .StarExpr X, some (tagAfterSynth lowerRune fld)⟩ ∧
      (rewriteField lowerRune typesList fld).Typ = .StarExpr X ∧
      (rewriteField lowerRune typesList fld).Tag
        = some (addOmitemptyValue (tagAfterSynth lowerRune fld)) ∧
      (ToLower lowerRune "SPtr".toList = "sptr".toList →
        rewriteField lowerRune typesList
            ⟨["SPtr".toList], .StarExpr (.Ident "Ptr".toList), none⟩
          = ⟨["SPtr".toList], .StarExpr (.Ident "Ptr".toList),
              some "`json:\"sptr,omitempty\"`".toList⟩) := by
  refine ⟨?_, ?_, ?_, ?_⟩
  · rw [rewriteField_named _ _ _ hn]
    simp [ht, typeAction, addOmitemptyTag]
  · rw [rewriteField_named _ _ _ hn]
    simp [ht, typeAction]
  · rw [rewriteField_named _ _ _ hn]
    simp [ht, typeAction]
  · intro hlow
    rw [rewriteField_named _ _ _ (by simp)]
    simp only [typeAction, tagAfterSynth, Option.getD_none, List.headD_cons, synthTag, hlow,
      Function.iterate_one]
    rfl

theorem already_optional_rule_witness :
    rewriteField Char.toLower []
        ⟨["SPtr".toList], .StarExpr (.Ident "Ptr".toList), none⟩
      = ⟨["SPtr".toList], .StarExpr (.Ident "Ptr".toList),
          some "`json:\"sptr,omitempty\"`".toList⟩ :=
  (already_optional_rule Char.toLower []
    ⟨["SPtr".toList], .StarExpr (.Ident "Ptr".toList), none⟩ (.Ident "Ptr".toList)
    (by decide) rfl).2.2.2 (by decide)

/-- Claim C14, as amended: for every registry and every named field whose
declared type is none of a bare name, a pointer, a sequence of a bare name and a
mapping to a bare name (a nested mapping or a function type, say), the declared
type and the names are unchanged, an existing annotation is returned unchanged,
and a synthesized one is exactly the key text, the lower-cased first name and the
closing quote and backtick, with no omit-marker added. -/
theorem other_shape_untouched (lowerRune : Char → Char) (typesList : typesListType)
    (fld : Field) (n : Str) (ns : List Str) (hn : fld.Names = n :: ns)
    (hshape : isOtherShape fld.Typ = true) :
    (rewriteField lowerRune typesList fld).Typ = fld.Typ ∧
      (rewriteField lowerRune typesList fld).Names = fld.Names ∧
      (∀ tag, fld.Tag = some tag → rewriteField lowerRune typesList fld = fld) ∧
      (fld.Tag = none → (rewriteField lowerRune typesList fld).Tag
        = some ("`json:\"".toList ++ ToLower lowerRune n ++ "\"`".toList)) := by
  have hne : fld.Names ≠ [] := by simp [hn]
  rw [rewriteField_of_other _ _ _ hne hshape]
  refine ⟨rfl, rfl, ?_, ?_⟩
  · intro tag htag
    rw [tagAfterSynth_of_some htag, ← htag]
  · intro htag
    rw [tagAfterSynth_of_none htag hn]
    rfl

theorem other_shape_untouched_witness :
    rewriteField Char.toLower [("Ptr".toList, true)]
        ⟨["F".toList], .other "func(Ptr) Ptr".toList, some "`json:\"f\"`".toList⟩
        = ⟨["F".toList], .other "func(Ptr) Ptr".toList, some "`json:\"f\"`".toList⟩ ∧
      (rewriteField Char.toLower [("Ptr".toList, true)]
        ⟨["G".toList], .other "func(Ptr) Ptr".toList, none⟩).Tag
        = some "`json:\"g\"`".toList :=
  ⟨(other_shape_untouched Char.toLower [("Ptr".toList, true)]
      ⟨["F".toList], .other "func(Ptr) Ptr".toList, some "`json:\"f\"`".toList⟩
      "F".toList [] rfl rfl).2.2.1 _ rfl,
    (other_shape_untouched Char.toLower [("Ptr".toList, true)]
      ⟨["G".toList], .other "func(Ptr) Ptr".toList, none⟩
      "G".toList [] rfl rfl).2.2.2 rfl⟩

/-- Claim C14 fails as stated: an optional sequence is a pointer for the loop.
The field `X *[]Ptr` keeps its type, but its annotation does not stay at the
tag synthesis: the synthesized tag and an existing tag with the value `x` both
end with the value `x,omitempty`, with an empty registry as well. -/
theorem optional_sequence_counterexample :
    rewriteField Char.toLower []
        ⟨["X".toList], .StarExpr (.ArrayType none (.Ident "Ptr".toList)), none⟩
        = ⟨["X".toList], .StarExpr (.ArrayType none (.Ident "Ptr".toList)),
            some "`json:\"x,omitempty\"`".toList⟩ ∧
      (rewriteField Char.toLower []
        ⟨["X".toList], .StarExpr (.ArrayType none (.Ident "Ptr".toList)), none⟩).Tag
        ≠ some ("`json:\"".toList ++ ToLower Char.toLower "X".toList ++ "\"`".toList) ∧
      rewriteField Char.toLower []
        ⟨["X".toList], .StarExpr (.ArrayType none (.Ident "Ptr".toList)),
          some "`json:\"x\"`".toList⟩
        ≠ ⟨["X".toList], .StarExpr (.ArrayType none (.Ident "Ptr".toList)),
          some "`json:\"x\"`".toList⟩ := by
  decide

/-- Claim C15: the registry contract.  After `LoadList names` on an empty
registry, `Contains n` is true exactly when `n` is equal to an element of
`names`, rune for rune (so `ptr` is not found when `Ptr` was loaded).  Hence the
empty list gives a registry on which `Contains` is false, and duplicates make no
difference: the list without its duplicates, and the list with a name repeated,
answer alike.  `Contains` only reads the map (it is a function of the registry
that returns the Boolean alone), and `needPointer` is that same test. -/
theorem registry_contract (names : List Str) (n : Str) :
    ((typesListType.LoadList [] names).Contains n = true ↔ n ∈ names) ∧
      (typesListType.LoadList [] []).Contains n = false ∧
      (typesListType.LoadList [] names.dedup).Contains n
        = (typesListType.LoadList [] names).Contains n ∧
      (∀ d, d ∈ names → (typesListType.LoadList [] (d :: names)).Contains n
        = (typesListType.LoadList [] names).Contains n) ∧
      needPointer (typesListType.LoadList [] names) n
        = (typesListType.LoadList [] names).Contains n ∧
      (typesListType.LoadList [] ["Ptr".toList]).Contains "ptr".toList = false := by
  have hiff : ∀ l : List Str, (typesListType.LoadList [] l).Contains n = true ↔ n ∈ l := by
    intro l
    rw [Contains_LoadList, Contains_empty]
    simp
  refine ⟨hiff names, rfl, ?_, ?_, rfl, by decide⟩
  · rw [Bool.eq_iff_iff, hiff, hiff, List.mem_dedup]
  · intro d hd
    rw [Bool.eq_iff_iff, hiff, hiff, List.mem_cons]
    constructor
    · rintro (rfl | h)
      · exact hd
      · exact h
    · exact Or.inr

theorem registry_contract_witness :
    (typesListType.LoadList [] ["Ptr".toList, "Ptr".toList, "A".toList]).Contains "Ptr".toList
      = (typesListType.LoadList [] ["Ptr".toList, "A".toList]).Contains "Ptr".toList :=
  (registry_contract ["Ptr".toList, "A".toList] "Ptr".toList).2.2.2.1 "Ptr".toList
    (by decide)

/-- Claim C16, as amended: the exact effect of `addOmitemptyTag` in the
well-behaved case.  For every annotation made of the key text, a value `V`, a
double quote and a rest, where `V` is non-empty, has no double quote and no
newline, does not contain `omitempty`, and occurs neither in the key text nor in
the rest, the result is the same annotation with `,omitempty` appended to `V`
and everything else unchanged. -/
theorem addOmitemptyTag_exact (fld : Field) (v rest : Str)
    (htag : fld.Tag = some (jsonKey ++ v ++ '"' :: rest))
    (hne : v ≠ []) (hq : '"' ∉ v) (hn : '\n' ∉ v) (hm : ¬ omitMarker <:+: v)
    (hk : ¬ v <:+: "\x60json:".toList) (hr : ¬ v <:+: rest) :
    addOmitemptyTag fld
      = { fld with Tag := some (jsonKey ++ (v ++ ",omitempty".toList) ++ '"' :: rest) } := by
  obtain ⟨names, typ, tag⟩ := fld
  simp only at htag
  subst htag
  simp only [addOmitemptyTag]
  rw [addOmitemptyValue_fresh_form hne hq hn hm hk, replaceScan_of_absent rest hr]
  rfl

theorem addOmitemptyTag_exact_witness :
    addOmitemptyTag ⟨["Boo".toList], .StarExpr (.Ident "Ptr".toList),
        some (jsonKey ++ "boo".toList ++ '"' :: " yaml:\"flagY\"`".toList)⟩
      = ⟨["Boo".toList], .StarExpr (.Ident "Ptr".toList),
        some (jsonKey ++ ("boo".toList ++ ",omitempty".toList)
          ++ '"' :: " yaml:\"flagY\"`".toList)⟩ :=
  addOmitemptyTag_exact _ "boo".toList " yaml:\"flagY\"`".toList rfl (by decide) (by decide)
    (by decide) (by decide) (by decide) (by decide)

/-- Claim C16 fails as stated: on the raw string literal whose json value is `a`,
a newline and `b` (non-empty, without `omitempty`, occurring nowhere else), the
pattern does not match and `addOmitemptyTag` leaves the annotation as it is,
where the claim asks for `,omitempty` after the value. -/
theorem newline_value_counterexample :
    isRawLit (jsonKey ++ "a\nb".toList ++ '"' :: "`".toList) = true ∧
      "a\nb".toList ≠ [] ∧
      Contains "a\nb".toList omitMarker = false ∧
      Contains "\x60json:".toList "a\nb".toList = false ∧
      Contains "`".toList "a\nb".toList = false ∧
      addOmitemptyValue (jsonKey ++ "a\nb".toList ++ '"' :: "`".toList)
        = jsonKey ++ "a\nb".toList ++ '"' :: "`".toList ∧
      addOmitemptyValue (jsonKey ++ "a\nb".toList ++ '"' :: "`".toList)
        ≠ jsonKey ++ ("a\nb".toList ++ ",omitempty".toList) ++ '"' :: "`".toList := by
  decide

/-- Claim C17: nested containers are left unmodified.  For every registry and
every named field whose declared type is a sequence with an element type that is
not a bare name, or a mapping with a value type that is not a bare name, the
declared type is unchanged and no omit-marker is added: an existing annotation
comes back unchanged and an absent one becomes exactly the synthesized tag, the
registry holding the innermost type name or not. -/
theorem nested_container_untouched (lowerRune : Char → Char) (typesList : typesListType)
    (fld : Field) (n : Str) (ns : List Str) (hn : fld.Names = n :: ns)
    (ht : (∃ len elt, fld.Typ = .ArrayType len elt ∧ ∀ name, elt ≠ .Ident name) ∨
      (∃ key value, fld.Typ = .MapType key value ∧ ∀ name, value ≠ .Ident name)) :
    (rewriteField lowerRune typesList fld).Typ = fld.Typ ∧
      (∀ tag, fld.Tag = some tag → rewriteField lowerRune typesList fld = fld) ∧
      (fld.Tag = none → (rewriteField lowerRune typesList fld).Tag
        = some ("`json:\"".toList ++ ToLower lowerRune n ++ "\"`".toList)) := by
  have hne : fld.Names ≠ [] := by simp [hn]
  have hshape : isOtherShape fld.Typ = true := by
    rcases ht with ⟨len, elt, h1, h2⟩ | ⟨key, value, h1, h2⟩
    · rw [h1]; exact isOtherShape_array len elt h2
    · rw [h1]; exact isOtherShape_map key value h2
  rw [rewriteField_of_other _ _ _ hne hshape]
  refine ⟨rfl, ?_, ?_⟩
  · intro tag htag
    rw [tagAfterSynth_of_some htag, ← htag]
  · intro htag
    rw [tagAfterSynth_of_none htag hn]
    rfl

theorem nested_container_untouched_witness :
    (rewriteField Char.toLower [("Ptr".toList, true)]
        ⟨["AA".toList], .ArrayType none (.ArrayType none (.Ident "Ptr".toList)), none⟩).Typ
        = .ArrayType none (.ArrayType none (.Ident "Ptr".toList)) ∧
      (rewriteField Char.toLower [("Ptr".toList, true)]
        ⟨["AA".toList], .ArrayType none (.ArrayType none (.Ident "Ptr".toList)), none⟩).Tag
        = some "`json:\"aa\"`".toList ∧
      rewriteField Char.toLower [("Ptr".toList, true)]
        ⟨["MA".toList], .MapType (.Ident "string".toList)
          (.ArrayType none (.Ident "Ptr".toList)), some "`json:\"ma\"`".toList⟩
        = ⟨["MA".toList], .MapType (.Ident "string".toList)
          (.ArrayType none (.Ident "Ptr".toList)), some "`json:\"ma\"`".toList⟩ :=
  have h1 := nested_container_untouched Char.toLower [("Ptr".toList, true)]
    ⟨["AA".toList], .ArrayType none (.ArrayType none (.Ident "Ptr".toList)), none⟩
    "AA".toList [] rfl (Or.inl ⟨_, _, rfl, by intro name h; cases h⟩)
  have h2 := nested_container_untouched Char.toLower [("Ptr".toList, true)]
    ⟨["MA".toList], .MapType (.Ident "string".toList)
      (.ArrayType none (.Ident "Ptr".toList)), some "`json:\"ma\"`".toList⟩
    "MA".toList [] rfl (Or.inr ⟨_, _, rfl, by intro name h; cases h⟩)
  ⟨h1.1, h1.2.2 rfl, h2.2.1 _ rfl⟩

/-- Claim C18: a field declaration that lists several names and has no
annotation gets a single annotation, synthesized from the first name only: the
tag synthesis leaves the key text, the lower-cased first name and the closing
quote and backtick, the output annotation is the one the field would get with
the first name alone, and the list of names is unchanged.  For a bare named type
outside the registry (as in `A, B int`) the output is the field with exactly the
synthesized annotation. -/
theorem several_names_share_first_key (lowerRune : Char → Char) (typesList : typesListType)
    (fld : Field) (n : Str) (ns : List Str) (hn : fld.Names = n :: ns)
    (htag : fld.Tag = none) :
    (synthStep lowerRune n fld).Tag
        = some ("`json:\"".toList ++ ToLower lowerRune n ++ "\"`".toList) ∧
      (rewriteField lowerRune typesList fld).Names = n :: ns ∧
      (rewriteField lowerRune typesList fld).Tag
        = (rewriteField lowerRune typesList ⟨[n], fld.Typ, none⟩).Tag ∧
      (∀ T, fld.Typ = .Ident T → needPointer typesList T = false →
        rewriteField lowerRune typesList fld
          = ⟨n :: ns, .Ident T,
              some ("`json:\"".toList ++ ToLower lowerRune n ++ "\"`".toList)⟩) := by
  have hne : fld.Names ≠ [] := by simp [hn]
  refine ⟨?_, ?_, ?_, ?_⟩
  · simp [synthStep, htag, synthTag]
  · rw [rewriteField_names, hn]
  · rw [rewriteField_named _ _ _ hne, rewriteField_named _ _ ⟨[n], fld.Typ, none⟩ (by simp)]
    simp [tagAfterSynth, htag, hn]
  · intro T hT hreg
    rw [rewriteField_named _ _ _ hne]
    simp [hT, typeAction, hreg, tagAfterSynth, htag, hn, synthTag]

theorem several_names_share_first_key_witness :
    rewriteField Char.toLower [("Ptr".toList, true)]
        ⟨["A".toList, "B".toList], .Ident "int".toList, none⟩
      = ⟨["A".toList, "B".toList], .Ident "int".toList, some "`json:\"a\"`".toList⟩ :=
  (several_names_share_first_key Char.toLower [("Ptr".toList, true)]
    ⟨["A".toList, "B".toList], .Ident "int".toList, none⟩ "A".toList ["B".toList] rfl
    rfl).2.2.2 "int".toList rfl (by decide)

end RewriteStructs
